import Mathlib

/-!
Verification of the VOTCA force-matching engine (`csg_fmatch.cc`,
`CGForceMatching`).  Dynamically sized `ublas` matrices are embedded as total
functions `ℕ → ℕ → ℚ`; every operation that in the C++ code runs over an index
range of size `p` sums over `Finset.range p`, so entries outside the active
range are never read.  Floating-point `double` arithmetic is idealised as exact
rational (and, where square roots occur, real) arithmetic.
-/

namespace Votca

/-- Matrix product over the index range `0 ≤ k < p`, embedding
`boost::numeric::ublas::prec_prod` on `p`-dimensional inner ranges. -/
def mmul (p : ℕ) (M N : ℕ → ℕ → ℚ) : ℕ → ℕ → ℚ :=
  fun i j => ∑ k ∈ Finset.range p, M i k * N k j

/-- Matrix–vector product over the index range `0 ≤ k < p`. -/
def mvec (p : ℕ) (M : ℕ → ℕ → ℚ) (v : ℕ → ℚ) : ℕ → ℚ :=
  fun i => ∑ k ∈ Finset.range p, M i k * v k

/-- Transpose, embedding `ublas::trans`. -/
def mtrans (M : ℕ → ℕ → ℚ) : ℕ → ℕ → ℚ := fun i j => M j i

/-- Identity matrix, embedding `ublas::identity_matrix`. -/
def idm : ℕ → ℕ → ℚ := fun i j => if i = j then 1 else 0

/-- Householder vector extracted in `FmatchAccumulateData` from the packed QR
factor: `v(icout) = 0` for `icout < k-1`, `v(k-1) = 1`, and
`v(icout) = B_t(icout, k-1)` for `k ≤ icout < cc`.  Here `V i j` stands for the
packed entry `gsl_matrix_get(B_t, i, j)` left by the external
`gsl_linalg_QR_decomp`, and `cc` is `v.size() = col_cntr`. -/
def hvec (cc k : ℕ) (V : ℕ → ℕ → ℚ) : ℕ → ℚ :=
  fun i => if i = k - 1 then 1 else if k ≤ i ∧ i < cc then V i (k - 1) else 0

/-- Householder reflector `Q_k = I - tau(k-1) * outer_prod(v, v)` formed in the
extraction loop of `FmatchAccumulateData`. -/
def reflector (cc : ℕ) (tau : ℕ → ℚ) (V : ℕ → ℕ → ℚ) (k : ℕ) : ℕ → ℕ → ℚ :=
  fun i j => idm i j - tau (k - 1) * (hvec cc k V i * hvec cc k V j)

/-- Index sequence of the extraction loop `for (int k = line_cntr; k > 0; k--)`:
the list `[lc, lc-1, ..., 1]`. -/
def descList (lc : ℕ) : List ℕ := (List.range lc).reverse.map (· + 1)

/-- The accumulated product computed by the loop body `Q = prec_prod(Q, Q_k)`
starting from `Q = I`. -/
def sourceQfold (cc lc : ℕ) (tau : ℕ → ℚ) (V : ℕ → ℕ → ℚ) : ℕ → ℕ → ℚ :=
  List.foldl (fun M k => mmul cc M (reflector cc tau V k)) idm (descList lc)

/-- The matrix `Q` used by the constrained solve: the loop product followed by
the final `Q = trans(Q)`. -/
def sourceQ (cc lc : ℕ) (tau : ℕ → ℚ) (V : ℕ → ℕ → ℚ) : ℕ → ℕ → ℚ :=
  mtrans (sourceQfold cc lc tau V)

/-- The constrained branch of `CGForceMatching::FmatchAccumulateData`, from the
reconstruction of `Q` onwards: form `_A * Q`, cut out the right block `A2`
(columns `cc/2 ≤ c < cc`, embedded with entries outside the `rows × cc/2`
block set to `0`), obtain the free coefficients from the external
least-squares routine `gsl_linalg_QR_lssolve` (abstracted as the oracle
`ols`), zero the first `_x.size()/2` entries, fill the rest with the free
coefficients, and return `_x = prec_prod(Q, _x)`. -/
def FmatchAccumulateX (rows lc cc : ℕ) (tau : ℕ → ℚ) (V : ℕ → ℕ → ℚ)
    (A : ℕ → ℕ → ℚ) (b : ℕ → ℚ)
    (ols : (ℕ → ℕ → ℚ) → (ℕ → ℚ) → (ℕ → ℚ)) : ℕ → ℚ :=
  let Q := sourceQ cc lc tau V
  let AQ := mmul cc A Q
  let A2 := fun i j => if i < rows ∧ j < cc / 2 then AQ i (j + cc / 2) else 0
  let xfree := ols A2 b
  let z := fun i => if i < cc / 2 then 0 else xfree (i - cc / 2)
  mvec cc Q z

/-- Null-space computation behind claim C1: if `B^T = Q R` on the active block,
`Q` has orthonormal columns and `R` is upper triangular there, then the vector
`Q * [0; xfree]` (first `cc/2` entries zeroed) is annihilated by `B`, for any
free part `xfree`, as soon as the constraint count `lc` is at most `cc/2`. -/
theorem nullspace_mul (lc cc : ℕ) (B Q R : ℕ → ℕ → ℚ) (xfree : ℕ → ℚ)
    (hlc : lc ≤ cc / 2)
    (hQR : ∀ i, i < cc → ∀ j, j < lc → mtrans B i j = mmul cc Q R i j)
    (hR : ∀ k, k < cc → ∀ i, i < lc → i < k → R k i = 0)
    (hOrth : ∀ i, i < cc → ∀ j, j < cc →
      (∑ k ∈ Finset.range cc, Q k i * Q k j) = if i = j then 1 else 0) :
    ∀ i, i < lc →
      mvec cc B (mvec cc Q (fun t => if t < cc / 2 then 0 else xfree (t - cc / 2)) ) i = 0 := by
  intro i hi
  set z : ℕ → ℚ := fun t => if t < cc / 2 then 0 else xfree (t - cc / 2) with hz
  show (∑ j ∈ Finset.range cc, B i j * (mvec cc Q z) j) = 0
  have step1 : ∀ j ∈ Finset.range cc,
      B i j * (mvec cc Q z) j
        = ∑ k ∈ Finset.range cc, ∑ l ∈ Finset.range cc,
            R k i * z l * (Q j k * Q j l) := by
    intro j hj
    rw [Finset.mem_range] at hj
    have hB : B i j = ∑ k ∈ Finset.range cc, Q j k * R k i := hQR j hj i hi
    have hv : (mvec cc Q z) j = ∑ l ∈ Finset.range cc, Q j l * z l := rfl
    rw [hB, hv, Finset.sum_mul]
    refine Finset.sum_congr rfl ?_
    intro k hk
    rw [Finset.mul_sum]
    refine Finset.sum_congr rfl ?_
    intro l hl
    ring
  rw [Finset.sum_congr rfl step1]
  rw [Finset.sum_comm]
  have step2 : ∀ k ∈ Finset.range cc,
      (∑ j ∈ Finset.range cc, ∑ l ∈ Finset.range cc,
          R k i * z l * (Q j k * Q j l)) = R k i * z k := by
    intro k hk
    rw [Finset.mem_range] at hk
    rw [Finset.sum_comm]
    have inner : ∀ l ∈ Finset.range cc,
        (∑ j ∈ Finset.range cc, R k i * z l * (Q j k * Q j l))
          = R k i * z l * (if k = l then 1 else 0) := by
      intro l hl
      rw [Finset.mem_range] at hl
      rw [← Finset.mul_sum]
      rw [hOrth k hk l hl]
    rw [Finset.sum_congr rfl inner]
    have collapse : (∑ l ∈ Finset.range cc, R k i * z l * (if k = l then 1 else 0))
        = ∑ l ∈ Finset.range cc, (if k = l then R k i * z l else 0) := by
      refine Finset.sum_congr rfl ?_
      intro l hl
      by_cases h : k = l
      · simp [h]
      · simp [h]
    rw [collapse, Finset.sum_ite_eq (Finset.range cc) k (fun l => R k i * z l)]
    simp [Finset.mem_range, hk]
  rw [Finset.sum_congr rfl step2]
  refine Finset.sum_eq_zero ?_
  intro k hk
  rw [Finset.mem_range] at hk
  by_cases hsmall : k < cc / 2
  · have : z k = 0 := by simp [hz, hsmall]
    rw [this, mul_zero]
  · have hik : i < k := lt_of_lt_of_le hi (le_trans hlc (le_of_not_lt hsmall))
    rw [hR k hk i hi hik, zero_mul]

/-- C1: in constrained mode, for every valid triple `(A, b, B)` — any design
matrix `A` and right-hand side `b`, and any constraint matrix `B` whose
transpose the external QR routine factors as `Q R` with orthonormal `Q` and
upper-triangular `R`, with the engine-assembled shape `lc ≤ cc/2` — the
solution `_x` returned by the constrained branch of `FmatchAccumulateData`
satisfies `B * _x = 0` exactly over exact arithmetic, whatever free
coefficients the inner least-squares oracle returns. -/
theorem C1_constrained_solution_annihilated (rows lc cc : ℕ)
    (tau : ℕ → ℚ) (V : ℕ → ℕ → ℚ) (A : ℕ → ℕ → ℚ) (b : ℕ → ℚ)
    (ols : (ℕ → ℕ → ℚ) → (ℕ → ℚ) → (ℕ → ℚ)) (B R : ℕ → ℕ → ℚ)
    (hlc : lc ≤ cc / 2)
    (hQR : ∀ i, i < cc → ∀ j, j < lc →
      mtrans B i j = mmul cc (sourceQ cc lc tau V) R i j)
    (hR : ∀ k, k < cc → ∀ i, i < lc → i < k → R k i = 0)
    (hOrth : ∀ i, i < cc → ∀ j, j < cc →
      (∑ k ∈ Finset.range cc, sourceQ cc lc tau V k i * sourceQ cc lc tau V k j)
        = if i = j then 1 else 0) :
    ∀ i, i < lc →
      mvec cc B (FmatchAccumulateX rows lc cc tau V A b ols) i = 0 := by
  intro i hi
  have h := nullspace_mul lc cc B (sourceQ cc lc tau V) R
    (ols (fun i j => if i < rows ∧ j < cc / 2 then
        mmul cc A (sourceQ cc lc tau V) i (j + cc / 2) else 0) b)
    hlc hQR hR hOrth i hi
  exact h

/-- Closed witness for C1: the two-column, one-constraint instance
`B = [1 0]`, trivial reflector data (`tau = 0`, so `Q = I`), `R = [1; 0]`,
with the least-squares oracle returning the constant `5`. -/
theorem C1_witness :
    (1 ≤ 2 / 2) ∧
    (∀ i, i < 1 →
      mvec 2 (fun r c => if r = 0 ∧ c = 0 then 1 else 0)
        (FmatchAccumulateX 1 1 2 (fun _ => 0) (fun _ _ => 0)
          (fun r c => if r = 0 ∧ c = 0 then 1 else 0) (fun _ => 1)
          (fun _ _ => fun _ => 5)) i = 0) := by
  have hQval : ∀ i j : ℕ, sourceQ 2 1 (fun _ => 0) (fun _ _ => 0) i j
      = mmul 2 idm (reflector 2 (fun _ => 0) (fun _ _ => 0) 1) j i := by
    intro i j
    simp [sourceQ, sourceQfold, mtrans, descList, List.range_succ]
  constructor
  · decide
  · refine C1_constrained_solution_annihilated 1 1 2 (fun _ => 0) (fun _ _ => 0)
      (fun r c => if r = 0 ∧ c = 0 then 1 else 0) (fun _ => 1)
      (fun _ _ => fun _ => 5)
      (fun r c => if r = 0 ∧ c = 0 then 1 else 0)
      (fun k i => if k = 0 ∧ i = 0 then 1 else 0)
      (by decide) ?_ ?_ ?_
    · intro i hi j hj
      interval_cases i <;> interval_cases j <;>
        norm_num [hQval, mmul, mtrans, idm, reflector, hvec, Finset.sum_range_succ]
    · intro k hk i hi hik
      interval_cases k <;> interval_cases i <;> norm_num
    · intro i hi j hj
      interval_cases i <;> interval_cases j <;>
        norm_num [hQval, mmul, idm, reflector, hvec, Finset.sum_range_succ]

theorem mmul_assoc (p : ℕ) (A B C : ℕ → ℕ → ℚ) (i j : ℕ) :
    mmul p (mmul p A B) C i j = mmul p A (mmul p B C) i j := by
  unfold mmul
  simp only [Finset.sum_mul, Finset.mul_sum]
  rw [Finset.sum_comm]
  refine Finset.sum_congr rfl ?_
  intro l hl
  refine Finset.sum_congr rfl ?_
  intro k hk
  ring

theorem mmul_idm_right (p : ℕ) (M : ℕ → ℕ → ℚ) (i j : ℕ) (hj : j < p) :
    mmul p M idm i j = M i j := by
  unfold mmul idm
  have h : ∀ k ∈ Finset.range p, M i k * (if k = j then (1:ℚ) else 0)
      = if k = j then M i k else 0 := by
    intro k hk
    by_cases h : k = j <;> simp [h]
  rw [Finset.sum_congr rfl h, Finset.sum_ite_eq' (Finset.range p) j (fun k => M i k)]
  simp [Finset.mem_range, hj]

theorem mmul_idm_left (p : ℕ) (M : ℕ → ℕ → ℚ) (i j : ℕ) :
    mmul p idm M i j = if i < p then M i j else 0 := by
  unfold mmul idm
  have h : ∀ k ∈ Finset.range p, (if i = k then (1:ℚ) else 0) * M k j
      = if i = k then M k j else 0 := by
    intro k hk
    by_cases h : i = k <;> simp [h]
  rw [Finset.sum_congr rfl h, Finset.sum_ite_eq (Finset.range p) i (fun k => M k j)]
  simp [Finset.mem_range]

/-- Product of the Householder reflectors accumulated in reverse index order,
from the last reflector `Q_k` down to the first `Q_1`, as the specification
words it. -/
def specReflProd (cc : ℕ) (tau : ℕ → ℚ) (V : ℕ → ℕ → ℚ) : ℕ → (ℕ → ℕ → ℚ)
  | 0 => idm
  | k + 1 => mmul cc (reflector cc tau V (k + 1)) (specReflProd cc tau V k)

/-- The loop `Q = prec_prod(Q, Q_k)` for `k` descending, started at the
identity, computes the descending product of the reflectors. -/
theorem foldl_reflectors (cc : ℕ) (tau : ℕ → ℚ) (V : ℕ → ℕ → ℚ) :
    ∀ (k : ℕ) (M : ℕ → ℕ → ℚ) (i j : ℕ), j < cc →
      List.foldl (fun N t => mmul cc N (reflector cc tau V t)) M (descList k) i j
        = mmul cc M (specReflProd cc tau V k) i j := by
  intro k
  induction k with
  | zero =>
    intro M i j hj
    show M i j = mmul cc M (specReflProd cc tau V 0) i j
    rw [show specReflProd cc tau V 0 = idm from rfl, mmul_idm_right cc M i j hj]
  | succ k ih =>
    intro M i j hj
    have hlist : descList (k + 1) = (k + 1) :: descList k := by
      unfold descList
      rw [List.range_succ, List.reverse_append]
      simp
    rw [hlist]
    show List.foldl (fun N t => mmul cc N (reflector cc tau V t))
        (mmul cc M (reflector cc tau V (k + 1))) (descList k) i j = _
    rw [ih (mmul cc M (reflector cc tau V (k + 1))) i j hj]
    rw [mmul_assoc]
    rfl

/-- The orthogonal factor as the specification describes it: the product of the
Householder reflectors `Q_k = I - tau_k v_k v_k^T` accumulated in reverse index
order from the last reflector to the first, then transposed. -/
def specQ (cc lc : ℕ) (tau : ℕ → ℚ) (V : ℕ → ℕ → ℚ) : ℕ → ℕ → ℚ :=
  mtrans (specReflProd cc tau V lc)

/-- The constrained solve as the specification words it: form `A·Q`, force the
first block of coefficients — the `lc` entries spanned by the constraint
directions — to zero, solve the remaining block by ordinary least squares
(oracle `ols`), and return `Q · [0; x_free]`. -/
def specConstrainedX (rows lc cc : ℕ) (tau : ℕ → ℚ) (V : ℕ → ℕ → ℚ)
    (A : ℕ → ℕ → ℚ) (b : ℕ → ℚ)
    (ols : (ℕ → ℕ → ℚ) → (ℕ → ℚ) → (ℕ → ℚ)) : ℕ → ℚ :=
  let Q := specQ cc lc tau V
  let AQ := mmul cc A Q
  let A2 := fun i j => if i < rows ∧ j < cc - lc then AQ i (j + lc) else 0
  let xfree := ols A2 b
  let z := fun i => if i < lc then 0 else xfree (i - lc)
  mvec cc Q z

theorem sourceQ_eq_specQ (cc lc : ℕ) (tau : ℕ → ℚ) (V : ℕ → ℕ → ℚ)
    (i j : ℕ) (hi : i < cc) (hj : j < cc) :
    sourceQ cc lc tau V i j = specQ cc lc tau V i j := by
  show sourceQfold cc lc tau V j i = specReflProd cc tau V lc j i
  unfold sourceQfold
  rw [foldl_reflectors cc tau V lc idm j i hi]
  rw [mmul_idm_left]
  simp [hj]

/-- C2: the constrained branch of `FmatchAccumulateData` computes exactly the
specified pipeline — reconstruct `Q` as the reflector product accumulated in
reverse index order then transposed, form `A·Q`, force the first block of
coefficients (those spanned by the constraint directions) to zero, solve the
remaining block by ordinary least squares, and return `Q·[0; x_free]` — on the
shapes the engine assembles, where the column count is twice the constraint
count. -/
theorem C2_constrained_steps (rows lc cc : ℕ) (tau : ℕ → ℚ) (V : ℕ → ℕ → ℚ)
    (A : ℕ → ℕ → ℚ) (b : ℕ → ℚ)
    (ols : (ℕ → ℕ → ℚ) → (ℕ → ℚ) → (ℕ → ℚ))
    (hcc : cc = 2 * lc) :
    ∀ i, i < cc →
      FmatchAccumulateX rows lc cc tau V A b ols i
        = specConstrainedX rows lc cc tau V A b ols i := by
  intro i hi
  have h2 : cc / 2 = lc := by omega
  have h3 : cc - lc = lc := by omega
  have hAQ : ∀ r t, t < cc →
      mmul cc A (sourceQ cc lc tau V) r t = mmul cc A (specQ cc lc tau V) r t := by
    intro r t ht
    unfold mmul
    refine Finset.sum_congr rfl ?_
    intro k hk
    rw [Finset.mem_range] at hk
    rw [sourceQ_eq_specQ cc lc tau V k t hk ht]
  have hA2 : (fun r j => if r < rows ∧ j < cc / 2 then
        mmul cc A (sourceQ cc lc tau V) r (j + cc / 2) else 0)
      = (fun r j => if r < rows ∧ j < cc - lc then
        mmul cc A (specQ cc lc tau V) r (j + lc) else 0) := by
    funext r j
    rw [h2, h3]
    by_cases hc : r < rows ∧ j < lc
    · rw [if_pos hc, if_pos hc, hAQ r (j + lc) (by omega)]
    · rw [if_neg hc, if_neg hc]
  simp only [FmatchAccumulateX, specConstrainedX]
  unfold mvec
  refine Finset.sum_congr rfl ?_
  intro k hk
  rw [Finset.mem_range] at hk
  rw [sourceQ_eq_specQ cc lc tau V i k hi hk]
  rw [hA2, h2]

/-- Closed witness for C2: the concrete instance with one constraint row, two
columns, trivial reflector data, and an explicit least-squares oracle. -/
theorem C2_witness :
    (2 = 2 * 1) ∧
    FmatchAccumulateX 1 1 2 (fun _ => 0) (fun _ _ => 0)
        (fun r c => if r = 0 ∧ c = 0 then 1 else 0) (fun _ => 1)
        (fun M v => fun t => M 0 t + v t) 0
      = specConstrainedX 1 1 2 (fun _ => 0) (fun _ _ => 0)
        (fun r c => if r = 0 ∧ c = 0 then 1 else 0) (fun _ => 1)
        (fun M v => fun t => M 0 t + v t) 0 :=
  ⟨rfl, C2_constrained_steps 1 1 2 (fun _ => 0) (fun _ _ => 0)
      (fun r c => if r = 0 ∧ c = 0 then 1 else 0) (fun _ => 1)
      (fun M v => fun t => M 0 t + v t) rfl 0 (by decide)⟩

/-- Channel registration in `CGForceMatching::BeginCG`: the bonded and then the
non-bonded interactions are registered in turn; each channel (its spline having
`n` intervals, listed in `ns`) receives `matr_pos` equal to the current column
counter, after which `line_cntr += n + 1` and `col_cntr += 2 * (n + 1)`.  The
result is the list of `(matr_pos, n)` pairs together with the final `line_cntr`
and `col_cntr`. -/
def BeginCGregister : List ℕ → ℕ → ℕ → (List (ℕ × ℕ) × ℕ × ℕ)
  | [], line, col => ([], line, col)
  | n :: rest, line, col =>
    let r := BeginCGregister rest (line + (n + 1)) (col + 2 * (n + 1))
    ((col, n) :: r.1, r.2)

theorem register_col_line (ns : List ℕ) :
    ∀ line col, (BeginCGregister ns line col).2.2 + 2 * line
      = 2 * (BeginCGregister ns line col).2.1 + col := by
  induction ns with
  | nil => intro line col; simp [BeginCGregister]; omega
  | cons n rest ih =>
    intro line col
    simp only [BeginCGregister]
    have h := ih (line + (n + 1)) (col + 2 * (n + 1))
    omega

theorem register_col_ge (ns : List ℕ) :
    ∀ line col, col ≤ (BeginCGregister ns line col).2.2 := by
  induction ns with
  | nil => intro line col; simp [BeginCGregister]
  | cons n rest ih =>
    intro line col
    simp only [BeginCGregister]
    have h := ih (line + (n + 1)) (col + 2 * (n + 1))
    omega

theorem register_mem_bounds (ns : List ℕ) :
    ∀ line col p, p ∈ (BeginCGregister ns line col).1 →
      col ≤ p.1 ∧ p.1 + 2 * (p.2 + 1) ≤ (BeginCGregister ns line col).2.2 := by
  induction ns with
  | nil => intro line col p hp; simp [BeginCGregister] at hp
  | cons n rest ih =>
    intro line col p hp
    simp only [BeginCGregister, List.mem_cons] at hp
    rcases hp with hp | hp
    · subst hp
      have h := register_col_ge rest (line + (n + 1)) (col + 2 * (n + 1))
      simp only [BeginCGregister]
      omega
    · have h := ih (line + (n + 1)) (col + 2 * (n + 1)) p hp
      simp only [BeginCGregister]
      omega

theorem register_pairwise (ns : List ℕ) :
    ∀ line col, (BeginCGregister ns line col).1.Pairwise
      (fun p q => p.1 + 2 * (p.2 + 1) ≤ q.1) := by
  induction ns with
  | nil => intro line col; simp [BeginCGregister]
  | cons n rest ih =>
    intro line col
    simp only [BeginCGregister]
    refine List.Pairwise.cons ?_ (ih (line + (n + 1)) (col + 2 * (n + 1)))
    intro q hq
    have h := register_mem_bounds rest (line + (n + 1)) (col + 2 * (n + 1)) q hq
    omega

theorem register_cover (ns : List ℕ) :
    ∀ line col x, (x < (BeginCGregister ns line col).2.2 ↔
      x < col ∨ ∃ p ∈ (BeginCGregister ns line col).1,
        p.1 ≤ x ∧ x < p.1 + 2 * (p.2 + 1)) := by
  induction ns with
  | nil => intro line col x; simp [BeginCGregister]
  | cons n rest ih =>
    intro line col x
    simp only [BeginCGregister, List.mem_cons]
    rw [ih (line + (n + 1)) (col + 2 * (n + 1)) x]
    constructor
    · rintro (h | ⟨p, hp, h1, h2⟩)
      · by_cases hx : x < col
        · exact Or.inl hx
        · exact Or.inr ⟨(col, n), Or.inl rfl, by omega⟩
      · exact Or.inr ⟨p, Or.inr hp, h1, h2⟩
    · rintro (h | ⟨p, hp, h1, h2⟩)
      · exact Or.inl (by omega)
      · rcases hp with hp | hp
        · subst hp
          exact Or.inl (by omega)
        · exact Or.inr ⟨p, hp, h1, h2⟩

/-- C5: after channel registration in `BeginCG`, the coefficient column ranges
`[matr_pos, matr_pos + 2*(n+1))` of distinct channels are pairwise disjoint,
and together they cover `[0, col_cntr)` without gaps: a coefficient index is
below `col_cntr` exactly when it lies in the range of some registered channel.
The registration data is never mutated afterwards, so this holds for the
lifetime of the run. -/
theorem C5_matr_pos_partition (ns : List ℕ) :
    ((BeginCGregister ns 0 0).1.Pairwise (fun p q => ∀ x : ℕ,
      ¬((p.1 ≤ x ∧ x < p.1 + 2 * (p.2 + 1)) ∧
        (q.1 ≤ x ∧ x < q.1 + 2 * (q.2 + 1))))) ∧
    (∀ x : ℕ, x < (BeginCGregister ns 0 0).2.2 ↔
      ∃ p ∈ (BeginCGregister ns 0 0).1, p.1 ≤ x ∧ x < p.1 + 2 * (p.2 + 1)) := by
  constructor
  · refine (register_pairwise ns 0 0).imp ?_
    intro p q h
    intro x hx
    omega
  · intro x
    have h := register_cover ns 0 0 x
    simpa using h

/-- Closed witness for C5: two channels with spline interval counts `0` and
`1`; coefficient index `3` lies below `col_cntr = 6`, in the second channel's
range only. -/
theorem C5_witness :
    3 < (BeginCGregister [0, 1] 0 0).2.2 ∧
    ¬((((0, 0) : ℕ × ℕ).1 ≤ 3 ∧ 3 < ((0, 0) : ℕ × ℕ).1 + 2 * (((0, 0) : ℕ × ℕ).2 + 1)) ∧
      (((2, 1) : ℕ × ℕ).1 ≤ 3 ∧ 3 < ((2, 1) : ℕ × ℕ).1 + 2 * (((2, 1) : ℕ × ℕ).2 + 1))) := by
  have h := C5_matr_pos_partition [0, 1]
  constructor
  · exact (h.2 3).mpr ⟨(2, 1), by decide, by decide⟩
  · have hp : (BeginCGregister [0, 1] 0 0).1.Pairwise (fun p q => ∀ x : ℕ,
      ¬((p.1 ≤ x ∧ x < p.1 + 2 * (p.2 + 1)) ∧
        (q.1 ≤ x ∧ x < q.1 + 2 * (q.2 + 1)))) := h.1
    have hl : (BeginCGregister [0, 1] 0 0).1 = [(0, 0), (2, 1)] := by decide
    rw [hl] at hp
    rcases List.pairwise_cons.mp hp with ⟨h1, _⟩
    exact h1 (2, 1) (by decide) 3

/-- C9: after channel registration the total column count equals exactly twice
the total constraint-row count (`col_cntr = 2 * line_cntr`), so zeroing the
first `_x.size()/2` coefficients in the constrained solver coincides with
zeroing the first `rows(B_constr) = line_cntr` constraint-direction
coefficients. -/
theorem C9_col_cntr_twice_line_cntr (ns : List ℕ) :
    (BeginCGregister ns 0 0).2.2 = 2 * (BeginCGregister ns 0 0).2.1 ∧
    (BeginCGregister ns 0 0).2.2 / 2 = (BeginCGregister ns 0 0).2.1 := by
  have h := register_col_line ns 0 0
  omega

/-- Modelled from the spec: `CubicSpline::AddToFitMatrix` (declared in
`tools/cubicspline.h`, whose implementation is not among the sources) performs
row-injection of the spline basis-gradient contributions into the matrix at a
given row and column offset, scaled by the given Cartesian gradient component:
it adds `scale * basis var (c - off)` to the entries of row `row` at the
columns `off ≤ c < off + width` spanned by the channel, and leaves every other
entry unchanged.  `basis var t` is the spline's basis-gradient value for
coordinate `var` at local column `t`, and `width = 2*(n+1)` is the channel's
column span. -/
def AddToFitMatrix (basis : ℚ → ℕ → ℚ) (width : ℕ) (M : ℕ → ℕ → ℚ)
    (var : ℚ) (row off : ℕ) (scale : ℚ) : ℕ → ℕ → ℚ :=
  fun r c => M r c +
    if r = row ∧ off ≤ c ∧ c < off + width then scale * basis var (c - off) else 0

/-- Row index targeted by the sample loops of `EvalBonded` and `EvalNonbonded`:
`LeastSQOffset + 3*N*L` (here folded into `off`) plus `axis * N + atom`, with
`axis = 0, 1, 2` for the x, y and z calls. -/
def sampleRow (off N atom axis : ℕ) : ℕ := off + axis * N + atom

/-- The body of the pair loop of `CGForceMatching::EvalNonbonded` for one
neighbour-list pair: three `AddToFitMatrix` calls for `iatom` with the
components of the normalised connecting vector, then three calls for `jatom`
with the negated components.  `off` is `LeastSQOffset + 3*N*L` and `mpos` the
channel's `matr_pos`. -/
def EvalNonbondedPair (basis : ℚ → ℕ → ℚ) (width : ℕ) (M : ℕ → ℕ → ℚ)
    (var : ℚ) (off N mpos iatom jatom : ℕ) (gx gy gz : ℚ) : ℕ → ℕ → ℚ :=
  AddToFitMatrix basis width
    (AddToFitMatrix basis width
      (AddToFitMatrix basis width
        (AddToFitMatrix basis width
          (AddToFitMatrix basis width
            (AddToFitMatrix basis width M var (sampleRow off N iatom 0) mpos gx)
            var (sampleRow off N iatom 1) mpos gy)
          var (sampleRow off N iatom 2) mpos gz)
        var (sampleRow off N jatom 0) mpos (-gx))
      var (sampleRow off N jatom 1) mpos (-gy))
    var (sampleRow off N jatom 2) mpos (-gz)

/-- C3: for every two-bead non-bonded pair sample processed by
`EvalNonbonded`, the three design-matrix row contributions added for the
second bead (`jatom`) are, axis by axis and column by column, the exact
negatives of the three contributions added for the first bead (`iatom`). -/
theorem C3_nonbonded_pair_antisymmetric (basis : ℚ → ℕ → ℚ) (width : ℕ)
    (M : ℕ → ℕ → ℚ) (var : ℚ) (off N mpos iatom jatom : ℕ) (gx gy gz : ℚ)
    (hi : iatom < N) (hj : jatom < N) (hij : iatom ≠ jatom) :
    ∀ c,
      (EvalNonbondedPair basis width M var off N mpos iatom jatom gx gy gz
          (sampleRow off N jatom 0) c - M (sampleRow off N jatom 0) c
        = -(EvalNonbondedPair basis width M var off N mpos iatom jatom gx gy gz
          (sampleRow off N iatom 0) c - M (sampleRow off N iatom 0) c)) ∧
      (EvalNonbondedPair basis width M var off N mpos iatom jatom gx gy gz
          (sampleRow off N jatom 1) c - M (sampleRow off N jatom 1) c
        = -(EvalNonbondedPair basis width M var off N mpos iatom jatom gx gy gz
          (sampleRow off N iatom 1) c - M (sampleRow off N iatom 1) c)) ∧
      (EvalNonbondedPair basis width M var off N mpos iatom jatom gx gy gz
          (sampleRow off N jatom 2) c - M (sampleRow off N jatom 2) c
        = -(EvalNonbondedPair basis width M var off N mpos iatom jatom gx gy gz
          (sampleRow off N iatom 2) c - M (sampleRow off N iatom 2) c)) := by
  intro c
  have hne : ∀ a a' x y : ℕ, a < 3 → a' < 3 → x < N → y < N →
      (a * N + x ≠ a' * N + y) → (sampleRow off N x a = sampleRow off N y a') = False := by
    intro a a' x y ha ha' hx hy hne
    unfold sampleRow
    exact eq_false (by omega)
  refine ⟨?_, ?_, ?_⟩
  · simp only [EvalNonbondedPair, AddToFitMatrix]
    simp only [hne 0 0 jatom iatom (by omega) (by omega) hj hi (by omega),
      hne 0 1 jatom iatom (by omega) (by omega) hj hi (by omega),
      hne 0 2 jatom iatom (by omega) (by omega) hj hi (by omega),
      hne 0 1 jatom jatom (by omega) (by omega) hj hj (by omega),
      hne 0 2 jatom jatom (by omega) (by omega) hj hj (by omega),
      hne 0 0 iatom jatom (by omega) (by omega) hi hj (by omega),
      hne 0 1 iatom iatom (by omega) (by omega) hi hi (by omega),
      hne 0 2 iatom iatom (by omega) (by omega) hi hi (by omega),
      hne 0 1 iatom jatom (by omega) (by omega) hi hj (by omega),
      hne 0 2 iatom jatom (by omega) (by omega) hi hj (by omega),
      eq_self_iff_true, true_and, false_and, if_false]
    by_cases hG : mpos ≤ c ∧ c < mpos + width
    · simp only [if_pos hG]; ring
    · simp only [if_neg hG]; ring
  · simp only [EvalNonbondedPair, AddToFitMatrix]
    simp only [hne 1 0 jatom iatom (by omega) (by omega) hj hi (by omega),
      hne 1 1 jatom iatom (by omega) (by omega) hj hi (by omega),
      hne 1 2 jatom iatom (by omega) (by omega) hj hi (by omega),
      hne 1 0 jatom jatom (by omega) (by omega) hj hj (by omega),
      hne 1 2 jatom jatom (by omega) (by omega) hj hj (by omega),
      hne 1 0 iatom iatom (by omega) (by omega) hi hi (by omega),
      hne 1 1 iatom jatom (by omega) (by omega) hi hj (by omega),
      hne 1 2 iatom iatom (by omega) (by omega) hi hi (by omega),
      hne 1 0 iatom jatom (by omega) (by omega) hi hj (by omega),
      hne 1 2 iatom jatom (by omega) (by omega) hi hj (by omega),
      eq_self_iff_true, true_and, false_and, if_false]
    by_cases hG : mpos ≤ c ∧ c < mpos + width
    · simp only [if_pos hG]; ring
    · simp only [if_neg hG]; ring
  · simp only [EvalNonbondedPair, AddToFitMatrix]
    simp only [hne 2 0 jatom iatom (by omega) (by omega) hj hi (by omega),
      hne 2 1 jatom iatom (by omega) (by omega) hj hi (by omega),
      hne 2 2 jatom iatom (by omega) (by omega) hj hi (by omega),
      hne 2 0 jatom jatom (by omega) (by omega) hj hj (by omega),
      hne 2 1 jatom jatom (by omega) (by omega) hj hj (by omega),
      hne 2 0 iatom iatom (by omega) (by omega) hi hi (by omega),
      hne 2 1 iatom iatom (by omega) (by omega) hi hi (by omega),
      hne 2 2 iatom jatom (by omega) (by omega) hi hj (by omega),
      hne 2 0 iatom jatom (by omega) (by omega) hi hj (by omega),
      hne 2 1 iatom jatom (by omega) (by omega) hi hj (by omega),
      eq_self_iff_true, true_and, false_and, if_false]
    by_cases hG : mpos ≤ c ∧ c < mpos + width
    · simp only [if_pos hG]; ring
    · simp only [if_neg hG]; ring

/-- Closed witness for C3: two beads `0` and `1` of a two-bead system, unit
basis, one-column channel, evaluated at column `0`. -/
theorem C3_witness :
    (0 < 2 ∧ 1 < 2 ∧ (0 : ℕ) ≠ 1) ∧
    (EvalNonbondedPair (fun _ _ => 1) 1 (fun _ _ => 0) 1 0 2 0 0 1 3 4 5
        (sampleRow 0 2 1 0) 0 - (fun _ _ => (0:ℚ)) (sampleRow 0 2 1 0) 0
      = -(EvalNonbondedPair (fun _ _ => 1) 1 (fun _ _ => 0) 1 0 2 0 0 1 3 4 5
        (sampleRow 0 2 0 0) 0 - (fun _ _ => (0:ℚ)) (sampleRow 0 2 0 0) 0)) := by
  constructor
  · exact ⟨by decide, by decide, by decide⟩
  · exact (C3_nonbonded_pair_antisymmetric (fun _ _ => 1) 1 (fun _ _ => 0) 1 0 2 0 0 1
      3 4 5 (by decide) (by decide) (by decide) 0).1

/-- Per-channel registration data used by the block machinery, from
`SplineInfo`: the spline name, `splineIndex`, column offset `matr_pos`,
interval count `n`, `res_output_coeff`, the first grid point
`Spline.getGridPoint(0)` and the output step `del_x_out`. -/
structure ChanInfo where
  name : String
  splineIndex : ℕ
  mp : ℕ
  n : ℕ
  roc : ℕ
  x0 : ℚ
  del : ℚ

/-- Engine configuration fixed at `BeginCG` time: bead count `N`, block size
`N_frames`, the `constrainedLS` flag, `line_cntr`, and the registered
channels. -/
structure FMOptions where
  Nbeads : ℕ
  Nframes : ℕ
  constrained : Bool
  lineCntr : ℕ
  chans : List ChanInfo

/-- Mutable engine state across `EvalConfiguration` calls: frame counter `L`,
block counter `BlockNum`, the matrices `_A`, `_b` and `B_constr`, the
per-channel accumulators `resSum`/`resSum2` (first index: channel, second:
output grid point), and the error log. -/
structure FMState where
  L : ℕ
  blockNum : ℕ
  A : ℕ → ℕ → ℚ
  b : ℕ → ℚ
  Bconstr : ℕ → ℕ → ℚ
  resSum : ℕ → ℕ → ℚ
  resSum2 : ℕ → ℕ → ℚ
  log : List String

/-- One trajectory frame as seen by `EvalConfiguration`: whether the
configuration carries forces (`conf->getBead(0)->HasF()`) and the force
component of bead `atom` along `axis` (`axis = 0, 1, 2` for x, y, z). -/
structure Frame where
  hasF : Bool
  force : ℕ → ℕ → ℚ

/-- `LeastSQOffset`: zero in constrained mode, `line_cntr` in simple mode. -/
def LeastSQOffset (opts : FMOptions) : ℕ :=
  if opts.constrained then 0 else opts.lineCntr

/-- The force-assignment loop of `EvalConfiguration`: writes
`_b(off + axis*N + atom) = F(atom, axis)` for every bead `atom < N` and every
axis, with `off = LeastSQOffset + 3*N*L`, leaving all other entries of `_b`
unchanged. -/
def assignRHS (N off : ℕ) (F : ℕ → ℕ → ℚ) (b : ℕ → ℚ) : ℕ → ℚ :=
  fun idx => if off ≤ idx ∧ idx < off + 3 * N
    then F ((idx - off) % N) ((idx - off) / N) else b idx

/-- The per-channel output-grid loop at the end of `FmatchAccumulateData`:
starting from `out_x` and stepping by `del_x_out`, it adds the spline value to
`resSum[i]` and its square to `resSum2[i]` for `cnt` successive indices
starting at `i`.  `S` abstracts `Spline.Calculate` after
`setSplineData(block_res)`. -/
def blockLoop (S : ℚ → ℚ) (del : ℚ) :
    ℕ → ℕ → ℚ → (ℕ → ℚ) → (ℕ → ℚ) → ((ℕ → ℚ) × (ℕ → ℚ))
  | 0, _, _, r, r2 => (r, r2)
  | cnt + 1, i, x, r, r2 =>
    blockLoop S del cnt (i + 1) (x + del)
      (Function.update r i (r i + S x))
      (Function.update r2 i (r2 i + S x * S x))

/-- Closed form of the iterated `out_x += del_x_out` loop: index `j` receives
the spline value at the grid point `x + (j - i) * del`. -/
theorem blockLoop_closed (S : ℚ → ℚ) (del : ℚ) :
    ∀ (cnt i : ℕ) (x : ℚ) (r r2 : ℕ → ℚ) (j : ℕ),
      ((blockLoop S del cnt i x r r2).1 j
        = if i ≤ j ∧ j < i + cnt then r j + S (x + ((j - i : ℕ) : ℚ) * del)
          else r j) ∧
      ((blockLoop S del cnt i x r r2).2 j
        = if i ≤ j ∧ j < i + cnt then
            r2 j + S (x + ((j - i : ℕ) : ℚ) * del) * S (x + ((j - i : ℕ) : ℚ) * del)
          else r2 j) := by
  intro cnt
  induction cnt with
  | zero =>
    intro i x r r2 j
    constructor
    · show r j = if i ≤ j ∧ j < i + 0 then _ else r j
      rw [if_neg (by omega)]
    · show r2 j = if i ≤ j ∧ j < i + 0 then _ else r2 j
      rw [if_neg (by omega)]
  | succ cnt ih =>
    intro i x r r2 j
    have hb := ih (i + 1) (x + del)
      (Function.update r i (r i + S x)) (Function.update r2 i (r2 i + S x * S x)) j
    constructor
    · show (blockLoop S del cnt (i + 1) (x + del) _ _).1 j = _
      rw [hb.1]
      by_cases hj : j = i
      · subst hj
        rw [if_neg (by omega), if_pos (by omega), Function.update_same]
        simp
      · rw [Function.update_noteq hj]
        by_cases hcond : i + 1 ≤ j ∧ j < i + 1 + cnt
        · rw [if_pos hcond, if_pos (by omega)]
          have harg : x + del + ((j - (i + 1) : ℕ) : ℚ) * del
              = x + ((j - i : ℕ) : ℚ) * del := by
            have h1 : j - i = (j - (i + 1)) + 1 := by omega
            rw [h1]
            push_cast
            ring
          rw [harg]
        · rw [if_neg hcond, if_neg (by omega)]
    · show (blockLoop S del cnt (i + 1) (x + del) _ _).2 j = _
      rw [hb.2]
      by_cases hj : j = i
      · subst hj
        rw [if_neg (by omega), if_pos (by omega), Function.update_same]
        simp
      · rw [Function.update_noteq hj]
        by_cases hcond : i + 1 ≤ j ∧ j < i + 1 + cnt
        · rw [if_pos hcond, if_pos (by omega)]
          have harg : x + del + ((j - (i + 1) : ℕ) : ℚ) * del
              = x + ((j - i : ℕ) : ℚ) * del := by
            have h1 : j - i = (j - (i + 1)) + 1 := by omega
            rw [h1]
            push_cast
            ring
          rw [harg]
        · rw [if_neg hcond, if_neg (by omega)]

/-- `CGForceMatching::FmatchAccumulateData` at state level: solve the current
system (the GSL-based solve abstracted as the oracle `solver`), then for every
channel set the spline to the channel's slice `block_res` of the solution
(`_x[mp], ..., _x[mp + 2(n+1) - 1]`) and run the output-grid accumulation loop
into `resSum`/`resSum2`.  `splineEval coeffs t` abstracts
`Spline.Calculate(t)` after `setSplineData(coeffs)`. -/
def FmatchAccumulateBlock (opts : FMOptions)
    (solver : (ℕ → ℕ → ℚ) → (ℕ → ℚ) → (ℕ → ℕ → ℚ) → (ℕ → ℚ))
    (splineEval : (ℕ → ℚ) → ℚ → ℚ) (s : FMState) : FMState :=
  let x := solver s.A s.b s.Bconstr
  { s with
    resSum := fun k i =>
      match opts.chans.get? k with
      | none => s.resSum k i
      | some ch => (blockLoop (splineEval (fun t => x (t + ch.mp))) ch.del
          (ch.roc * (ch.n + 1)) 0 ch.x0 (s.resSum k) (s.resSum2 k)).1 i
    resSum2 := fun k i =>
      match opts.chans.get? k with
      | none => s.resSum2 k i
      | some ch => (blockLoop (splineEval (fun t => x (t + ch.mp))) ch.del
          (ch.roc * (ch.n + 1)) 0 ch.x0 (s.resSum k) (s.resSum2 k)).2 i }

/-- The design matrix after the frame's sample-injection loops
(`EvalBonded`/`EvalNonbonded` over all splines, abstracted as `inject`). -/
def frameA (inject : (ℕ → ℕ → ℚ) → Frame → ℕ → (ℕ → ℕ → ℚ))
    (f : Frame) (s : FMState) : ℕ → ℕ → ℚ :=
  inject s.A f s.L

/-- The right-hand side after the frame: assigned from the configuration's
forces when present, untouched otherwise. -/
def frameB (opts : FMOptions) (f : Frame) (s : FMState) : ℕ → ℚ :=
  if f.hasF then
    assignRHS opts.Nbeads (LeastSQOffset opts + 3 * opts.Nbeads * s.L) f.force s.b
  else s.b

/-- The log after the frame: an error line is appended exactly when the
configuration carries no forces. -/
def frameLog (f : Frame) (s : FMState) : List String :=
  if f.hasF then s.log else s.log ++ ["ERROR: No forces in configuration!"]

/-- The block reset at the end of a full block in `EvalConfiguration`:
`L = 0`; in constrained mode `_A` and `_b` are cleared and the constraint
rows are re-seeded into `B_constr`, in simple mode `_A` is re-seeded with the
smoothing rows and `_b` cleared.  `seedBC` abstracts the matrix produced by
`FmatchAssignSmoothCondsToMatrix`. -/
def blockReset (opts : FMOptions) (seedBC : ℕ → ℕ → ℚ) (s : FMState) : FMState :=
  if opts.constrained then
    { s with L := 0, A := fun _ _ => 0, b := fun _ => 0, Bconstr := seedBC }
  else
    { s with L := 0, A := seedBC, b := fun _ => 0 }

/-- `CGForceMatching::EvalConfiguration`: inject the frame's samples into
`_A`, assign the right-hand side when the configuration carries forces (else
log an error), advance the frame counter, and when the counter reaches a
multiple of the block size, count the block, solve and accumulate, and reset
for the next block. -/
def EvalConfiguration (opts : FMOptions)
    (inject : (ℕ → ℕ → ℚ) → Frame → ℕ → (ℕ → ℕ → ℚ))
    (solver : (ℕ → ℕ → ℚ) → (ℕ → ℚ) → (ℕ → ℕ → ℚ) → (ℕ → ℚ))
    (splineEval : (ℕ → ℚ) → ℚ → ℚ) (seedBC : ℕ → ℕ → ℚ)
    (f : Frame) (s : FMState) : FMState :=
  let s3 : FMState := { s with
    A := frameA inject f s,
    b := frameB opts f s,
    log := frameLog f s,
    L := s.L + 1 }
  if s3.L % opts.Nframes = 0 then
    blockReset opts seedBC (FmatchAccumulateBlock opts solver splineEval
      { s3 with blockNum := s3.blockNum + 1 })
  else s3

/-- C6: the block accumulator is a two-state machine.  While the frame counter
stays below the block size, a step only appends the frame's samples and
right-hand side: the counter advances and nothing is solved or accumulated.
Exactly when the counter reaches the block size, the step solves the system,
slices the solution per channel, evaluates the spline at every output grid
point, accumulates sum and sum of squares, increments the block counter, and
returns to accumulating with the counter reset to zero, the matrices cleared
and the constraint/smoothing rows re-seeded. -/
theorem C6_two_state_machine (opts : FMOptions)
    (inject : (ℕ → ℕ → ℚ) → Frame → ℕ → (ℕ → ℕ → ℚ))
    (solver : (ℕ → ℕ → ℚ) → (ℕ → ℚ) → (ℕ → ℕ → ℚ) → (ℕ → ℚ))
    (splineEval : (ℕ → ℚ) → ℚ → ℚ) (seedBC : ℕ → ℕ → ℚ)
    (f : Frame) (s : FMState) :
    (s.L + 1 < opts.Nframes →
      EvalConfiguration opts inject solver splineEval seedBC f s
        = { s with
            A := frameA inject f s, b := frameB opts f s,
            log := frameLog f s, L := s.L + 1 }) ∧
    (s.L + 1 = opts.Nframes →
      (EvalConfiguration opts inject solver splineEval seedBC f s).L = 0 ∧
      (EvalConfiguration opts inject solver splineEval seedBC f s).blockNum
        = s.blockNum + 1 ∧
      (EvalConfiguration opts inject solver splineEval seedBC f s).A
        = (if opts.constrained then (fun _ _ => 0) else seedBC) ∧
      (EvalConfiguration opts inject solver splineEval seedBC f s).b
        = (fun _ => 0) ∧
      (EvalConfiguration opts inject solver splineEval seedBC f s).Bconstr
        = (if opts.constrained then seedBC else s.Bconstr) ∧
      (∀ k ch, opts.chans.get? k = some ch → ∀ i, i < ch.roc * (ch.n + 1) →
        ((EvalConfiguration opts inject solver splineEval seedBC f s).resSum k i
          = s.resSum k i + splineEval
              (fun t => solver (frameA inject f s) (frameB opts f s) s.Bconstr
                (t + ch.mp))
              (ch.x0 + ((i : ℕ) : ℚ) * ch.del)) ∧
        ((EvalConfiguration opts inject solver splineEval seedBC f s).resSum2 k i
          = s.resSum2 k i + splineEval
              (fun t => solver (frameA inject f s) (frameB opts f s) s.Bconstr
                (t + ch.mp))
              (ch.x0 + ((i : ℕ) : ℚ) * ch.del)
            * splineEval
              (fun t => solver (frameA inject f s) (frameB opts f s) s.Bconstr
                (t + ch.mp))
              (ch.x0 + ((i : ℕ) : ℚ) * ch.del)))) := by
  constructor
  · intro hL
    have hmod : (s.L + 1) % opts.Nframes = s.L + 1 := Nat.mod_eq_of_lt hL
    simp only [EvalConfiguration]
    rw [if_neg (by simp only [hmod]; omega)]
  · intro hL
    have hmod : (s.L + 1) % opts.Nframes = 0 := by
      rw [hL]
      exact Nat.mod_self _
    have hout : EvalConfiguration opts inject solver splineEval seedBC f s
        = blockReset opts seedBC (FmatchAccumulateBlock opts solver splineEval
            { s with
              A := frameA inject f s, b := frameB opts f s,
              log := frameLog f s, L := s.L + 1, blockNum := s.blockNum + 1 }) := by
      simp only [EvalConfiguration]
      rw [if_pos (by simp only [hmod])]
    have hreset : ∀ X : FMState, ((blockReset opts seedBC X).L = 0 ∧
        (blockReset opts seedBC X).blockNum = X.blockNum ∧
        (blockReset opts seedBC X).A
          = (if opts.constrained then (fun _ _ => 0) else seedBC) ∧
        (blockReset opts seedBC X).b = (fun _ => 0) ∧
        (blockReset opts seedBC X).Bconstr
          = (if opts.constrained then seedBC else X.Bconstr) ∧
        (blockReset opts seedBC X).resSum = X.resSum ∧
        (blockReset opts seedBC X).resSum2 = X.resSum2) := by
      intro X
      by_cases hc : opts.constrained <;> simp [blockReset, hc]
    rw [hout]
    obtain ⟨r1, r2, r3, r4, r5, r6, r7⟩ := hreset (FmatchAccumulateBlock opts solver
      splineEval { s with
        A := frameA inject f s, b := frameB opts f s,
        log := frameLog f s, L := s.L + 1, blockNum := s.blockNum + 1 })
    refine ⟨r1, ?_, r3, r4, ?_, ?_⟩
    · rw [r2]
      simp [FmatchAccumulateBlock]
    · rw [r5]
      simp [FmatchAccumulateBlock]
    · intro k ch hk i hi
      constructor
      · rw [r6]
        simp only [FmatchAccumulateBlock, hk]
        have hb := (blockLoop_closed
          (splineEval (fun t => solver (frameA inject f s) (frameB opts f s)
            s.Bconstr (t + ch.mp)))
          ch.del (ch.roc * (ch.n + 1)) 0 ch.x0 (s.resSum k) (s.resSum2 k) i).1
        rw [hb, if_pos (by omega)]
        simp
      · rw [r7]
        simp only [FmatchAccumulateBlock, hk]
        have hb := (blockLoop_closed
          (splineEval (fun t => solver (frameA inject f s) (frameB opts f s)
            s.Bconstr (t + ch.mp)))
          ch.del (ch.roc * (ch.n + 1)) 0 ch.x0 (s.resSum k) (s.resSum2 k) i).2
        rw [hb, if_pos (by omega)]
        simp

/-- C7: a frame whose configuration lacks force data is logged and its
right-hand side assignment skipped, but processing continues: the frame
counter still advances, the block counter is untouched below the block
boundary, and at the boundary the frame still completes the block. -/
theorem C7_no_forces_logged_and_skipped (opts : FMOptions)
    (inject : (ℕ → ℕ → ℚ) → Frame → ℕ → (ℕ → ℕ → ℚ))
    (solver : (ℕ → ℕ → ℚ) → (ℕ → ℚ) → (ℕ → ℕ → ℚ) → (ℕ → ℚ))
    (splineEval : (ℕ → ℚ) → ℚ → ℚ) (seedBC : ℕ → ℕ → ℚ)
    (f : Frame) (s : FMState) (hF : f.hasF = false) :
    (s.L + 1 < opts.Nframes →
      (EvalConfiguration opts inject solver splineEval seedBC f s).b = s.b ∧
      (EvalConfiguration opts inject solver splineEval seedBC f s).log
        = s.log ++ ["ERROR: No forces in configuration!"] ∧
      (EvalConfiguration opts inject solver splineEval seedBC f s).L = s.L + 1 ∧
      (EvalConfiguration opts inject solver splineEval seedBC f s).blockNum
        = s.blockNum) ∧
    (s.L + 1 = opts.Nframes →
      (EvalConfiguration opts inject solver splineEval seedBC f s).blockNum
        = s.blockNum + 1 ∧
      (EvalConfiguration opts inject solver splineEval seedBC f s).L = 0) := by
  constructor
  · intro hL
    have hmod : (s.L + 1) % opts.Nframes = s.L + 1 := Nat.mod_eq_of_lt hL
    have hout : EvalConfiguration opts inject solver splineEval seedBC f s
        = { s with
            A := frameA inject f s, b := frameB opts f s,
            log := frameLog f s, L := s.L + 1 } := by
      simp only [EvalConfiguration]
      rw [if_neg (by simp only [hmod]; omega)]
    rw [hout]
    refine ⟨?_, ?_, rfl, rfl⟩
    · simp [frameB, hF]
    · simp [frameLog, hF]
  · intro hL
    have hmod : (s.L + 1) % opts.Nframes = 0 := by
      rw [hL]
      exact Nat.mod_self _
    have hout : EvalConfiguration opts inject solver splineEval seedBC f s
        = blockReset opts seedBC (FmatchAccumulateBlock opts solver splineEval
            { s with
              A := frameA inject f s, b := frameB opts f s,
              log := frameLog f s, L := s.L + 1, blockNum := s.blockNum + 1 }) := by
      simp only [EvalConfiguration]
      rw [if_pos (by simp only [hmod])]
    rw [hout]
    by_cases hc : opts.constrained <;>
      simp [blockReset, FmatchAccumulateBlock, hc]

/-- Concrete channel used by the state-machine witnesses: one spline interval
group with `matr_pos = 0`, `n = 0`, one output point per interval, grid origin
`0`, output step `1`. -/
def wChan : ChanInfo := ⟨"bond", 0, 0, 0, 1, 0, 1⟩

/-- Witness options with block size one. -/
def wOpts1 : FMOptions := ⟨1, 1, true, 1, [wChan]⟩

/-- Witness options with block size two. -/
def wOpts2 : FMOptions := ⟨1, 2, true, 1, [wChan]⟩

/-- Witness frame carrying forces. -/
def wFrame : Frame := ⟨true, fun _ _ => 2⟩

/-- Witness frame lacking forces. -/
def wFrameNF : Frame := ⟨false, fun _ _ => 2⟩

/-- Witness initial state: all counters and matrices zero. -/
def wState : FMState :=
  ⟨0, 0, fun _ _ => 0, fun _ => 0, fun _ _ => 0, fun _ _ => 0, fun _ _ => 0, []⟩

/-- Witness sample-injection oracle: leaves the matrix unchanged. -/
def wInject : (ℕ → ℕ → ℚ) → Frame → ℕ → (ℕ → ℕ → ℚ) := fun A _ _ => A

/-- Witness solver oracle: returns the right-hand side. -/
def wSolver : (ℕ → ℕ → ℚ) → (ℕ → ℚ) → (ℕ → ℕ → ℚ) → (ℕ → ℚ) :=
  fun _ b _ => b

/-- Witness spline-evaluation oracle. -/
def wSpline : (ℕ → ℚ) → ℚ → ℚ := fun coeffs t => coeffs 0 + t

/-- Witness smoothing-row seed. -/
def wSeed : ℕ → ℕ → ℚ := fun _ _ => 0

/-- Closed witness for C6: below the block size (block size two) the step only
appends; at the block size (block size one) the counter resets, the block
counter increments and the accumulator receives the evaluated solution. -/
theorem C6_witness :
    (wState.L + 1 < wOpts2.Nframes ∧
      EvalConfiguration wOpts2 wInject wSolver wSpline wSeed wFrame wState
        = { wState with
            A := frameA wInject wFrame wState,
            b := frameB wOpts2 wFrame wState,
            log := frameLog wFrame wState, L := wState.L + 1 }) ∧
    (wState.L + 1 = wOpts1.Nframes ∧
      (EvalConfiguration wOpts1 wInject wSolver wSpline wSeed wFrame wState).L = 0 ∧
      (EvalConfiguration wOpts1 wInject wSolver wSpline wSeed wFrame
          wState).blockNum = wState.blockNum + 1 ∧
      (EvalConfiguration wOpts1 wInject wSolver wSpline wSeed wFrame
          wState).resSum 0 0
        = wState.resSum 0 0 + wSpline
            (fun t => wSolver (frameA wInject wFrame wState)
              (frameB wOpts1 wFrame wState) wState.Bconstr (t + wChan.mp))
            (wChan.x0 + ((0 : ℕ) : ℚ) * wChan.del)) := by
  constructor
  · exact ⟨by decide,
      (C6_two_state_machine wOpts2 wInject wSolver wSpline wSeed wFrame wState).1
        (by decide)⟩
  · have h := (C6_two_state_machine wOpts1 wInject wSolver wSpline wSeed wFrame
      wState).2 rfl
    exact ⟨rfl, h.1, h.2.1,
      (h.2.2.2.2.2 0 wChan rfl 0 (by decide)).1⟩

/-- Closed witness for C7: with a forceless frame, the right-hand side is kept,
the error is logged and the counter advances (block size two); at the block
boundary (block size one) the block still completes. -/
theorem C7_witness :
    (wState.L + 1 < wOpts2.Nframes ∧
      (EvalConfiguration wOpts2 wInject wSolver wSpline wSeed wFrameNF
          wState).b = wState.b ∧
      (EvalConfiguration wOpts2 wInject wSolver wSpline wSeed wFrameNF
          wState).log = wState.log ++ ["ERROR: No forces in configuration!"] ∧
      (EvalConfiguration wOpts2 wInject wSolver wSpline wSeed wFrameNF
          wState).L = wState.L + 1) ∧
    (wState.L + 1 = wOpts1.Nframes ∧
      (EvalConfiguration wOpts1 wInject wSolver wSpline wSeed wFrameNF
          wState).blockNum = wState.blockNum + 1) := by
  constructor
  · have h := (C7_no_forces_logged_and_skipped wOpts2 wInject wSolver wSpline
      wSeed wFrameNF wState rfl).1 (by decide)
    exact ⟨by decide, h.1, h.2.1, h.2.2.1⟩
  · have h := (C7_no_forces_logged_and_skipped wOpts1 wInject wSolver wSpline
      wSeed wFrameNF wState rfl).2 rfl
    exact ⟨rfl, h.1⟩

/-- Mean emitted by `EndCG`: `result[i] = resSum[i] / BlockNum` (exact
division idealising the unguarded `double` division of the source). -/
def endCGresult (blockNum : ℕ) (s : ℚ) : ℚ := s / (blockNum : ℚ)

/-- Error emitted by `EndCG`:
`error[i] = sqrt(resSum2[i]/BlockNum - result[i]*result[i])`. -/
noncomputable def endCGerror (blockNum : ℕ) (s s2 : ℚ) : ℝ :=
  Real.sqrt (((s2 / (blockNum : ℚ)
    - endCGresult blockNum s * endCGresult blockNum s : ℚ) : ℝ))

/-- The output loop of `EndCG`: starting from `out_x = getGridPoint(0)` and
stepping by `del_x_out`, emit one line `(out_x, -result[i], error[i])` per
output grid index. -/
def lineLoop (res : ℕ → ℚ) (err : ℕ → ℝ) (del : ℚ) :
    ℕ → ℕ → ℚ → List (ℚ × ℚ × ℝ)
  | 0, _, _ => []
  | cnt + 1, i, x => (x, -res i, err i) :: lineLoop res err del cnt (i + 1) (x + del)

/-- One channel's output file as written by `CGForceMatching::EndCG`: the
name `<channel>.force`, one header comment line with the channel index, and
one line per output grid point holding the grid coordinate, the negated mean
force, and the error. -/
noncomputable def EndCGfile (ch : ChanInfo) (rs rs2 : ℕ → ℚ) (blockNum : ℕ) :
    String × String × List (ℚ × ℚ × ℝ) :=
  (ch.name ++ ".force",
   "# interaction No. " ++ toString ch.splineIndex,
   lineLoop (fun i => endCGresult blockNum (rs i))
     (fun i => endCGerror blockNum (rs i) (rs2 i))
     ch.del (ch.roc * (ch.n + 1)) 0 ch.x0)

/-- Closed form of the `out_x += del_x_out` output loop of `EndCG`. -/
theorem lineLoop_get (res : ℕ → ℚ) (err : ℕ → ℝ) (del : ℚ) :
    ∀ (cnt i : ℕ) (x : ℚ) (k : ℕ), k < cnt →
      (lineLoop res err del cnt i x).get? k
        = some (x + (k : ℚ) * del, -res (i + k), err (i + k)) := by
  intro cnt
  induction cnt with
  | zero => intro i x k hk; omega
  | succ cnt ih =>
    intro i x k hk
    cases k with
    | zero => simp [lineLoop]
    | succ k =>
      show (lineLoop res err del cnt (i + 1) (x + del)).get? k = _
      rw [ih (i + 1) (x + del) k (by omega)]
      have h1 : i + 1 + k = i + (k + 1) := by omega
      have h2 : x + del + (k : ℚ) * del = x + ((k + 1 : ℕ) : ℚ) * del := by
        push_cast
        ring
      rw [h1, h2]

/-- C4: at finalisation, for every channel and every output grid point `k`,
the emitted mean is `resSum[k]` divided by the number of completed blocks, the
emitted error is `sqrt(resSum2[k]/BlockNum - mean²)`, and the output file is
named `<channel>.force`, starts with one header comment line with the channel
index, and its line `k` holds the grid coordinate, the negated mean force and
the error. -/
theorem C4_endcg_output (ch : ChanInfo) (rs rs2 : ℕ → ℚ) (blockNum : ℕ) :
    (EndCGfile ch rs rs2 blockNum).1 = ch.name ++ ".force" ∧
    (EndCGfile ch rs rs2 blockNum).2.1
      = "# interaction No. " ++ toString ch.splineIndex ∧
    (∀ k, k < ch.roc * (ch.n + 1) →
      (EndCGfile ch rs rs2 blockNum).2.2.get? k
        = some (ch.x0 + (k : ℚ) * ch.del,
            -(rs k / (blockNum : ℚ)),
            Real.sqrt (((rs2 k / (blockNum : ℚ)
              - (rs k / (blockNum : ℚ)) * (rs k / (blockNum : ℚ)) : ℚ) : ℝ)))) := by
  refine ⟨rfl, rfl, ?_⟩
  intro k hk
  show (lineLoop (fun i => endCGresult blockNum (rs i))
      (fun i => endCGerror blockNum (rs i) (rs2 i))
      ch.del (ch.roc * (ch.n + 1)) 0 ch.x0).get? k = _
  rw [lineLoop_get (fun i => endCGresult blockNum (rs i))
    (fun i => endCGerror blockNum (rs i) (rs2 i)) ch.del
    (ch.roc * (ch.n + 1)) 0 ch.x0 k hk]
  simp [endCGresult, endCGerror]

/-- Closed witness for C4: one output point, `resSum = 3`, `resSum2 = 9`, one
completed block. -/
theorem C4_witness :
    (0 < wChan.roc * (wChan.n + 1)) ∧
    (EndCGfile wChan (fun _ => 3) (fun _ => 9) 1).2.2.get? 0
      = some (wChan.x0 + ((0 : ℕ) : ℚ) * wChan.del,
          -((3 : ℚ) / ((1 : ℕ) : ℚ)),
          Real.sqrt ((((9 : ℚ) / ((1 : ℕ) : ℚ)
            - ((3 : ℚ) / ((1 : ℕ) : ℚ)) * ((3 : ℚ) / ((1 : ℕ) : ℚ)) : ℚ) : ℝ))) :=
  ⟨by decide,
    (C4_endcg_output wChan (fun _ => 3) (fun _ => 9) 1).2.2 0 (by decide)⟩

/-- Division as a partial operation: `none` exactly when the divisor is zero,
capturing when an unguarded division is well defined. -/
def divChecked (a : ℚ) (d : ℕ) : Option ℚ :=
  if d = 0 then none else some (a / (d : ℚ))

/-- C10: `EndCG` divides the accumulated sums by the block counter with no
guard: if finalisation is reached before any block has completed
(`BlockNum = 0`) every per-grid-point mean is a division by zero, hence not
well defined; under the precondition `BlockNum ≥ 1` the checked division is
defined and agrees with the emitted mean `endCGresult`. -/
theorem C10_endcg_unguarded_division (blockNum : ℕ) (rs : ℕ → ℚ) :
    (blockNum = 0 → ∀ i : ℕ, divChecked (rs i) blockNum = none) ∧
    (1 ≤ blockNum → ∀ i : ℕ,
      divChecked (rs i) blockNum = some (endCGresult blockNum (rs i))) := by
  constructor
  · intro h i
    simp [divChecked, h]
  · intro h i
    rw [divChecked, if_neg (by omega)]
    rfl

/-- Closed witness for C10: with no completed block the mean of `5` is
undefined; with one block it is `5/1`. -/
theorem C10_witness :
    divChecked ((5 : ℚ)) 0 = none ∧
    divChecked ((5 : ℚ)) 1 = some (endCGresult 1 5) :=
  ⟨(C10_endcg_unguarded_division 0 (fun _ => 5)).1 rfl 0,
   (C10_endcg_unguarded_division 1 (fun _ => 5)).2 (by decide) 0⟩

/-- `N` identical completed blocks: the per-grid accumulation loop of
`FmatchAccumulateData` applied `N` times with the same per-block spline
function, starting from cleared accumulators. -/
def repeatBlocks (S : ℚ → ℚ) (del : ℚ) (cnt : ℕ) (x0 : ℚ) :
    ℕ → ((ℕ → ℚ) × (ℕ → ℚ))
  | 0 => (fun _ => 0, fun _ => 0)
  | N + 1 =>
    blockLoop S del cnt 0 x0 (repeatBlocks S del cnt x0 N).1
      (repeatBlocks S del cnt x0 N).2

theorem repeatBlocks_closed (S : ℚ → ℚ) (del : ℚ) (cnt : ℕ) (x0 : ℚ) :
    ∀ N j, ((repeatBlocks S del cnt x0 N).1 j
        = if j < cnt then (N : ℚ) * S (x0 + (j : ℚ) * del) else 0)
      ∧ ((repeatBlocks S del cnt x0 N).2 j
        = if j < cnt then
            (N : ℚ) * (S (x0 + (j : ℚ) * del) * S (x0 + (j : ℚ) * del))
          else 0) := by
  intro N
  induction N with
  | zero =>
    intro j
    constructor
    · show (0 : ℚ) = _
      by_cases hj : j < cnt
      · rw [if_pos hj]
        norm_num
      · rw [if_neg hj]
    · show (0 : ℚ) = _
      by_cases hj : j < cnt
      · rw [if_pos hj]
        norm_num
      · rw [if_neg hj]
  | succ N ih =>
    intro j
    have hb := blockLoop_closed S del cnt 0 x0
      (repeatBlocks S del cnt x0 N).1 (repeatBlocks S del cnt x0 N).2 j
    constructor
    · show (blockLoop S del cnt 0 x0 _ _).1 j = _
      rw [hb.1]
      by_cases hj : j < cnt
      · rw [if_pos (by omega), (ih j).1, if_pos hj, if_pos hj]
        simp only [Nat.sub_zero]
        push_cast
        ring
      · rw [if_neg (by omega), (ih j).1, if_neg hj, if_neg hj]
    · show (blockLoop S del cnt 0 x0 _ _).2 j = _
      rw [hb.2]
      by_cases hj : j < cnt
      · rw [if_pos (by omega), (ih j).2, if_pos hj, if_pos hj]
        simp only [Nat.sub_zero]
        push_cast
        ring
      · rw [if_neg (by omega), (ih j).2, if_neg hj, if_neg hj]

/-- C8: if all `N ≥ 1` completed blocks produce identical per-block spline
evaluations, the error computed at finalisation is zero at every output grid
point: `resSum2/N - (resSum/N)² = 0` when every accumulated value is the
same. -/
theorem C8_identical_blocks_zero_error (S : ℚ → ℚ) (del : ℚ) (cnt : ℕ)
    (x0 : ℚ) (N : ℕ) (hN : 1 ≤ N) :
    ∀ j, j < cnt →
      endCGerror N ((repeatBlocks S del cnt x0 N).1 j)
        ((repeatBlocks S del cnt x0 N).2 j) = 0 := by
  intro j hj
  have h1 := (repeatBlocks_closed S del cnt x0 N j).1
  have h2 := (repeatBlocks_closed S del cnt x0 N j).2
  rw [if_pos hj] at h1 h2
  rw [h1, h2]
  unfold endCGerror endCGresult
  have hNQ : (N : ℚ) ≠ 0 := Nat.cast_ne_zero.mpr (by omega)
  have harg : ((N : ℚ) * (S (x0 + (j : ℚ) * del) * S (x0 + (j : ℚ) * del))
        / (N : ℚ)
      - ((N : ℚ) * S (x0 + (j : ℚ) * del) / (N : ℚ))
        * ((N : ℚ) * S (x0 + (j : ℚ) * del) / (N : ℚ)) : ℚ) = 0 := by
    field_simp
  rw [harg]
  simp

/-- Closed witness for C8: two identical blocks with the identity spline on a
one-point grid give zero error. -/
theorem C8_witness :
    (1 ≤ 2 ∧ 0 < 1) ∧
    endCGerror 2 ((repeatBlocks (fun t => t) 1 1 0 2).1 0)
      ((repeatBlocks (fun t => t) 1 1 0 2).2 0) = 0 :=
  ⟨⟨by decide, by decide⟩,
    C8_identical_blocks_zero_error (fun t => t) 1 1 0 2 (by decide) 0 (by decide)⟩

end Votca
